import Mathlib

/-!
A verification development for the `uclasm` noisy subgraph-matching engine.

The Python code under study consists of `matching_problem.py` (the
`MatchingProblem` class holding the template graph, the world graph and the
three monotone cost arrays), `local_cost_bound/edgewise.py` (the edgewise
local cost bound), `interface.py` (the fixed-point filtering driver
`run_filters`), together with the tests in `test_search.py`.

Conventions of the embedding:
* machine floats holding edge counts and `np.Inf` are modelled by
  `WithTop Int` (`⊤` plays the role of infinity) — every cost produced by
  the modelled code paths is an integral edge count or infinity;
* adjacency matrices hold edge multiplicities, modelled as natural numbers;
* fallible code is modelled in `Except String`; a raised Python exception is
  an `Except.error` carrying the exception text;
* components of the repository that are imported by the files above but whose
  own sources are not available (the `Graph` class internals, the
  `MonotoneArray` wrapper, `feature_disagreements`, `inspect_channels`,
  the nodewise/global cost bounds and the best-k search) are modelled from
  the specification; each such definition carries a doc comment starting
  with `Modelled from the spec:`.
-/

/-- Cost values: numbers extended with an absorbing infinity, mirroring the
numpy float cost entries (integral in every modelled code path) together
with `np.Inf`. -/
abbrev Cost := WithTop ℤ

/-- An `n × m` cost matrix (one row per template node, one column per world
node), the shape of `fixed_costs`, `local_costs` and `global_costs`. -/
abbrev CMat (n m : ℕ) := Fin n → Fin m → Cost

/-- Edge-count cast into the cost domain. -/
def natCost (k : ℕ) : Cost := ((k : ℤ) : Cost)

/-- Modelled from the spec: the `Graph` class (its source is not under
`src/`).  A multi-channel directed graph on `n` nodes: an ordered list of
channel labels and, for each channel, a square adjacency matrix of edge
multiplicities.  `adj` is total over labels; only labels occurring in
`channels` are ever consulted, mirroring the `ch_to_adj` dictionary. -/
structure Graph (n : ℕ) where
  channels : List String
  adj : String → Fin n → Fin n → ℕ

/-- The state of a `MatchingProblem` (matching_problem.py) after
construction: the two graphs, the three cost arrays and the two thresholds.
This is the well-shaped state manipulated by the cost-bound components; the
raw constructor, which performs no shape validation, is modelled separately
below. -/
structure MatchingProblem (n m : ℕ) where
  tmplt : Graph n
  world : Graph m
  fixed_costs : CMat n m
  local_costs : CMat n m
  global_costs : CMat n m
  local_cost_threshold : Cost
  global_cost_threshold : Cost

/-- Method `MatchingProblem.candidates` (matching_problem.py): the boolean matrix
whose entry `(i, j)` says whether `global_costs[i, j] <= global_cost_threshold`.
The method reads `global_costs` and `global_cost_threshold` and writes
nothing. -/
def MatchingProblem.candidates (smp : MatchingProblem n m) :
    Fin n → Fin m → Bool :=
  fun i j => decide (smp.global_costs i j ≤ smp.global_cost_threshold)

theorem candidates_le_iff (smp : MatchingProblem n m)
    (i : Fin n) (j : Fin m) :
    smp.candidates i j = true ↔
      smp.global_costs i j ≤ smp.global_cost_threshold := by
  simp [MatchingProblem.candidates]

/-- C4: for every MatchingProblem, `candidates()` returns the boolean n×m
matrix whose entry (i, j) is true exactly when
`global_costs[i, j] ≤ global_cost_threshold`; as a pure function of the
problem state it leaves the state unchanged. -/
theorem candidates_iff_global_cost_le (smp : MatchingProblem n m)
    (i : Fin n) (j : Fin m) :
    smp.candidates i j = true ↔
      smp.global_costs i j ≤ smp.global_cost_threshold :=
  candidates_le_iff smp i j

/-- Modelled from the spec: the `MonotoneArray` wrapper from
`matching_utils` (not under `src/`).  Writing `value` into the array through
`arr[:] = value` raises each entry to at least its current value: the stored
entry becomes the maximum of the old entry and the written one, so writes
can only increase entries and `⊤` is absorbing. -/
def monotoneWrite (old v : CMat n m) : CMat n m :=
  fun i j => max (old i j) (v i j)

/-- One write through a cost-array property setter of `MatchingProblem`
(`fixed_costs.setter`, `local_costs.setter`, `global_costs.setter` in
matching_problem.py), carrying the value being assigned. -/
inductive SetterWrite (n m : ℕ) where
  | wfixed (v : CMat n m)
  | wlocal (v : CMat n m)
  | wglobal (v : CMat n m)

/-- Effect of one property-setter write: each setter stores into its
`MonotoneArray` via `self._xxx_costs[:] = value`. -/
def applyWrite (smp : MatchingProblem n m) :
    SetterWrite n m → MatchingProblem n m
  | .wfixed v => { smp with fixed_costs := monotoneWrite smp.fixed_costs v }
  | .wlocal v => { smp with local_costs := monotoneWrite smp.local_costs v }
  | .wglobal v => { smp with global_costs := monotoneWrite smp.global_costs v }

/-- A sequence of writes through the property setters, applied in order. -/
def applyWrites (smp : MatchingProblem n m) (ws : List (SetterWrite n m)) :
    MatchingProblem n m :=
  ws.foldl applyWrite smp

/-- Method `MatchingProblem.set_costs` (matching_problem.py): replaces the supplied
cost arrays outright (a fresh `MonotoneArray` view), the explicit override
of monotonicity. -/
def MatchingProblem.set_costs (smp : MatchingProblem n m)
    (fixed? local? global? : Option (CMat n m)) : MatchingProblem n m :=
  { smp with
    fixed_costs := fixed?.getD smp.fixed_costs
    local_costs := local?.getD smp.local_costs
    global_costs := global?.getD smp.global_costs }

theorem le_applyWrite (smp : MatchingProblem n m) (w : SetterWrite n m)
    (i : Fin n) (j : Fin m) :
    smp.fixed_costs i j ≤ (applyWrite smp w).fixed_costs i j ∧
    smp.local_costs i j ≤ (applyWrite smp w).local_costs i j ∧
    smp.global_costs i j ≤ (applyWrite smp w).global_costs i j := by
  cases w <;> simp [applyWrite, monotoneWrite, le_max_left]

theorem le_applyWrites (ws : List (SetterWrite n m))
    (smp : MatchingProblem n m) (i : Fin n) (j : Fin m) :
    smp.fixed_costs i j ≤ (applyWrites smp ws).fixed_costs i j ∧
    smp.local_costs i j ≤ (applyWrites smp ws).local_costs i j ∧
    smp.global_costs i j ≤ (applyWrites smp ws).global_costs i j := by
  induction ws generalizing smp with
  | nil => exact ⟨le_rfl, le_rfl, le_rfl⟩
  | cons w ws ih =>
    have h1 := le_applyWrite smp w i j
    have h2 := ih (applyWrite smp w)
    exact ⟨h1.1.trans h2.1, h1.2.1.trans h2.2.1, h1.2.2.trans h2.2.2⟩

/-- C2: along any sequence of writes made through the property setters, each
entry of each of the three cost arrays is non-decreasing over time (the value
after a longer prefix of writes is at least the value after a shorter one),
and an entry once equal to infinity stays infinite.  `set_costs`, embedded as
`MatchingProblem.set_costs`, replaces the arrays outright and is the sole
explicit override of this monotonicity. -/
theorem setter_writes_monotone (smp : MatchingProblem n m)
    (ws ws' : List (SetterWrite n m)) (i : Fin n) (j : Fin m) :
    ((applyWrites smp ws).fixed_costs i j ≤
        (applyWrites smp (ws ++ ws')).fixed_costs i j ∧
      (applyWrites smp ws).local_costs i j ≤
        (applyWrites smp (ws ++ ws')).local_costs i j ∧
      (applyWrites smp ws).global_costs i j ≤
        (applyWrites smp (ws ++ ws')).global_costs i j) ∧
    ((applyWrites smp ws).fixed_costs i j = ⊤ →
        (applyWrites smp (ws ++ ws')).fixed_costs i j = ⊤) ∧
    ((applyWrites smp ws).local_costs i j = ⊤ →
        (applyWrites smp (ws ++ ws')).local_costs i j = ⊤) ∧
    ((applyWrites smp ws).global_costs i j = ⊤ →
        (applyWrites smp (ws ++ ws')).global_costs i j = ⊤) := by
  have happ : applyWrites smp (ws ++ ws')
      = applyWrites (applyWrites smp ws) ws' := by
    simp [applyWrites, List.foldl_append]
  have h := le_applyWrites ws' (applyWrites smp ws) i j
  rw [happ]
  refine ⟨⟨h.1, h.2.1, h.2.2⟩, ?_, ?_, ?_⟩ <;> intro htop
  · exact top_le_iff.mp (htop ▸ h.1)
  · exact top_le_iff.mp (htop ▸ h.2.1)
  · exact top_le_iff.mp (htop ▸ h.2.2)

/-- Witness for `setter_writes_monotone` at a concrete 1×1 problem and a
concrete pair of write sequences. -/
theorem setter_writes_monotone_witness :
    (let g1 : Graph 1 := ⟨["c1"], fun _ _ _ => 0⟩
     let smp : MatchingProblem 1 1 :=
       ⟨g1, g1, fun _ _ => 0, fun _ _ => 0, fun _ _ => 0, 0, 0⟩
     let ws : List (SetterWrite 1 1) := [.wlocal (fun _ _ => 5)]
     let ws' : List (SetterWrite 1 1) := [.wlocal (fun _ _ => 3)]
     (applyWrites smp ws).local_costs 0 0 ≤
       (applyWrites smp (ws ++ ws')).local_costs 0 0) := by
  have h := setter_writes_monotone
    (n := 1) (m := 1)
    ⟨⟨["c1"], fun _ _ _ => 0⟩, ⟨["c1"], fun _ _ _ => 0⟩,
      fun _ _ => 0, fun _ _ => 0, fun _ _ => 0, 0, 0⟩
    [.wlocal (fun _ _ => 5)] [.wlocal (fun _ _ => 3)] 0 0
  exact h.1.2.1

/-- Truth of an `Except.ok` result; used to state that a call
completed without raising. -/
def isOkE {ε α : Type _} : Except ε α → Bool
  | .ok _ => true
  | .error _ => false

/-- The `np.any` reduction over a boolean row. -/
def anyTrue {k : ℕ} (c : Fin k → Bool) : Bool :=
  (List.finRange k).any (fun j => c j)

/-- Generator `iter_adj_pairs` (edgewise.py): for each channel of the template, in
order, yield the pair of adjacency matrices of the template and of the
world, then the pair of their transposes.  After construction the world has
exactly the template's channels, so the dictionary lookup
`world.ch_to_adj[channel]` always succeeds; the embedding reads the world's
total adjacency function directly. -/
def iter_adj_pairs (tmplt : Graph n) (world : Graph m) :
    List ((Fin n → Fin n → ℕ) × (Fin m → Fin m → ℕ)) :=
  tmplt.channels.flatMap (fun c =>
    [(tmplt.adj c, world.adj c),
     (fun u v => tmplt.adj c v u, fun u v => world.adj c v u)])

/-- Running state of the per-pair channel loop in `edgewise_local_costs`:
the running total of template edges between the pair, and the supported-edge
count matrix, still `None` before the first channel with a template edge. -/
structure PairScan (m : ℕ) where
  total : ℕ
  supported : Option (Fin m → Fin m → ℕ)

/-- One iteration of the channel loop of `edgewise_local_costs` for the
template pair `(s, d)`: add `tmplt_adj[s, d]` to the total; skip the channel
if that value is zero; otherwise accumulate
`world_sub_adj.minimum(tmplt_adj_val)` into `supported_edges`.  The world
sub-adjacency restricted to candidate rows/columns is represented by the
full matrix; only candidate entries are consulted afterwards. -/
def chanStep (s d : Fin n) (st : PairScan m)
    (tw : (Fin n → Fin n → ℕ) × (Fin m → Fin m → ℕ)) : PairScan m :=
  let tval := tw.1 s d
  if tval = 0 then ⟨st.total + tval, st.supported⟩
  else
    match st.supported with
    | none => ⟨st.total + tval, some (fun j k => min (tw.2 j k) tval)⟩
    | some S => ⟨st.total + tval, some (fun j k => S j k + min (tw.2 j k) tval)⟩

/-- The channel loop of `edgewise_local_costs` over `iter_adj_pairs`. -/
def scanPair (tmplt : Graph n) (world : Graph m) (s d : Fin n) : PairScan m :=
  (iter_adj_pairs tmplt world).foldl (chanStep s d) ⟨0, none⟩

/-- The `.max(axis=...)` of the supported-edge count over the candidate
positions of one endpoint.  All entries are non-negative counts and a sparse
matrix maximum includes the implicit zeros, so the fold starts at `0`. -/
def candMax {m : ℕ} (c : Fin m → Bool) (f : Fin m → ℕ) : ℕ :=
  ((List.finRange m).filter (fun k => c k)).foldl (fun a k => max a (f k)) 0

/-- The body of the pair loop of `edgewise_local_costs` (edgewise.py, branch
with no edge attribute function) for one template pair `(s, d)`: skip the
pair — after printing a message — when either endpoint has no candidates;
otherwise scan the channels, take the candidate row/column maxima of the
supported-edge count, and add `total_tmplt_edges - maximum` into the rows of
`s` and (when `s ≠ d`) `d` at their candidate columns.  When every channel
has zero template edges between `s` and `d`, `supported_edges` is still
`None` and the call to `.max` raises. -/
def processPair (tmplt : Graph n) (world : Graph m)
    (cands : Fin n → Fin m → Bool) (acc : CMat n m) (p : Fin n × Fin n) :
    Except String (CMat n m) :=
  let s := p.1
  let d := p.2
  if !(anyTrue (cands s)) || !(anyTrue (cands d)) then
    -- "No candidates for given nodes, skipping edge" is printed; continue.
    .ok acc
  else
    let scan := scanPair tmplt world s d
    match scan.supported with
    | none => .error "AttributeError: NoneType object has no attribute max"
    | some S =>
      let srcLeast : Fin m → ℕ :=
        fun j => scan.total - candMax (cands d) (fun k => S j k)
      let acc1 : CMat n m := fun i j =>
        if i = s ∧ cands s j = true then acc i j + natCost (srcLeast j)
        else acc i j
      if s = d then .ok acc1
      else
        let dstLeast : Fin m → ℕ :=
          fun k => scan.total - candMax (cands s) (fun j => S j k)
        .ok (fun i j =>
          if i = d ∧ cands d j = true then acc1 i j + natCost (dstLeast j)
          else acc1 i j)

/-- Modelled from the spec: `tmplt.nbr_idx_pairs` (a `Graph` attribute whose
source is not under `src/`): the template's neighbor index, listing each
adjacent pair of template nodes once — the pairs `(u, v)` with `u ≤ v` such
that some channel has an edge between `u` and `v` in either direction. -/
def Graph.nbr_idx_pairs (g : Graph n) : List (Fin n × Fin n) :=
  (List.finRange n).flatMap (fun u =>
    ((List.finRange n).filter (fun v =>
        decide (u ≤ v) &&
          g.channels.any (fun c => g.adj c u v != 0 || g.adj c v u != 0))).map
      (fun v => (u, v)))

/-- The pair loop of `edgewise_local_costs`, parameterised by the data it
reads: the two graphs, the candidate matrix (computed once at the top of the
call) and the optional changed-candidates vector.  A pair both of whose
endpoints are unchanged is skipped before anything else. -/
def pairStep (tmplt : Graph n) (world : Graph m)
    (cands : Fin n → Fin m → Bool) (changed_cands : Option (Fin n → Bool))
    (acc : CMat n m) (p : Fin n × Fin n) : Except String (CMat n m) :=
  match changed_cands with
  | some ch =>
    -- "If neither the source nor destination has changed, there is no
    -- point in filtering on this pair of nodes."
    if !(ch p.1 || ch p.2) then pure acc
    else processPair tmplt world cands acc p
  | none => processPair tmplt world cands acc p

def edgewise_core (tmplt : Graph n) (world : Graph m)
    (cands : Fin n → Fin m → Bool) (changed_cands : Option (Fin n → Bool)) :
    Except String (CMat n m) :=
  tmplt.nbr_idx_pairs.foldlM (pairStep tmplt world cands changed_cands)
    (fun _ _ => 0)

/-- Function `edgewise_local_costs` (edgewise.py) in the configuration in which the
matching problem supplies no edge attribute function: start from a zero
matrix, read `smp.candidates()` once, and run the pair loop. -/
def edgewise_local_costs (smp : MatchingProblem n m)
    (changed_cands : Option (Fin n → Bool)) : Except String (CMat n m) :=
  edgewise_core smp.tmplt smp.world smp.candidates changed_cands

/-- Function `edgewise` (edgewise.py): `smp.local_costs = edgewise_local_costs(...)`,
the assignment running through the monotone `local_costs` setter. -/
def edgewise (smp : MatchingProblem n m)
    (changed_cands : Option (Fin n → Bool)) :
    Except String (MatchingProblem n m) :=
  (edgewise_local_costs smp changed_cands).map
    (fun L => { smp with local_costs := monotoneWrite smp.local_costs L })

/-- The template of the search tests (test_search.py): 3 nodes a, b, c
(indices 0, 1, 2), channels c1 and c2, edges b→a on c1 and c→b on c2. -/
def tmpltG3 : Graph 3 :=
  ⟨["c1", "c2"], fun c i j =>
    if c = "c1" ∧ i = 1 ∧ j = 0 then 1
    else if c = "c2" ∧ i = 2 ∧ j = 1 then 1
    else 0⟩

/-- The noisy world of the search tests: same nodes, but only the c1 edge
b→a; the c2 channel is empty. -/
def worldNoisyG3 : Graph 3 :=
  ⟨["c1", "c2"], fun c i j => if c = "c1" ∧ i = 1 ∧ j = 0 then 1 else 0⟩

/-- The noisy matching problem of the search tests:
`MatchingProblem(tmplt, world, global_cost_threshold=1)`.  The channel lists
agree and neither graph has self-loops, so construction stores zero cost
arrays and the graphs unchanged. -/
def smp_noisy : MatchingProblem 3 3 :=
  ⟨tmpltG3, worldNoisyG3, fun _ _ => 0, fun _ _ => 0, fun _ _ => 0, 0, 1⟩

/-- A matching problem whose template node 0 has no candidates: global costs
of row 0 are infinite while the threshold is 0. -/
def smpC1 : MatchingProblem 3 3 :=
  ⟨tmpltG3, tmpltG3, fun _ _ => 0, fun _ _ => 0,
    fun i _ => if i = 0 then ⊤ else 0, 0, 0⟩

/-- C1, counterexample: in `smpC1` template node 0 participates in the
adjacent pair (0, 1) drawn from the neighbor index and has zero candidates,
yet `edgewise_local_costs` completes normally (prints a message, skips the
pair) instead of raising a fatal error. -/
theorem edgewise_zero_cand_no_fatal_error :
    isOkE (edgewise_local_costs smpC1 none) = true ∧
    ((0 : Fin 3), (1 : Fin 3)) ∈ smpC1.tmplt.nbr_idx_pairs ∧
    (∀ j : Fin 3, smpC1.candidates 0 j = false) := by decide

/-- C1, amended: when a template node participating in an adjacent pair has
zero candidates, the pair-loop body prints "No candidates for given nodes,
skipping edge" and skips the pair, leaving the accumulated cost matrix
untouched and raising nothing. -/
theorem processPair_skips_zero_cand (tmplt : Graph n) (world : Graph m)
    (cands : Fin n → Fin m → Bool) (acc : CMat n m) (p : Fin n × Fin n)
    (h : (∀ j, cands p.1 j = false) ∨ (∀ j, cands p.2 j = false)) :
    processPair tmplt world cands acc p = .ok acc := by
  rcases h with h | h
  · have hna : anyTrue (cands p.1) = false := by
      simp only [anyTrue, List.any_eq_false]
      intro j _
      simp [h j]
    simp [processPair, hna]
  · have hna : anyTrue (cands p.2) = false := by
      simp only [anyTrue, List.any_eq_false]
      intro j _
      simp [h j]
    simp [processPair, hna]

/-- Witness for `processPair_skips_zero_cand` at the concrete problem
`smpC1` and its pair (0, 1). -/
theorem processPair_skips_zero_cand_witness :
    processPair smpC1.tmplt smpC1.world smpC1.candidates (fun _ _ => 0)
      ((0 : Fin 3), (1 : Fin 3)) = .ok (fun _ _ => 0) :=
  processPair_skips_zero_cand smpC1.tmplt smpC1.world smpC1.candidates
    (fun _ _ => 0) ((0 : Fin 3), (1 : Fin 3))
    (Or.inl (by decide))

theorem processPair_frame (t : Graph n) (w : Graph m)
    (cands : Fin n → Fin m → Bool) (acc acc' : CMat n m) (p : Fin n × Fin n)
    (hok : processPair t w cands acc p = .ok acc') (i : Fin n) (j : Fin m)
    (h1 : i ≠ p.1) (h2 : i ≠ p.2) : acc' i j = acc i j := by
  simp only [processPair] at hok
  split at hok
  · simp only [Except.ok.injEq] at hok
    rw [← hok]
  · split at hok
    · exact absurd hok (by simp)
    · split at hok <;>
        simp only [Except.ok.injEq] at hok <;>
        rw [← hok] <;>
        simp [h1, h2]

theorem chanStep_supported_none_iff (s d : Fin n) (st : PairScan m)
    (tw : (Fin n → Fin n → ℕ) × (Fin m → Fin m → ℕ)) :
    (chanStep s d st tw).supported = none ↔
      (st.supported = none ∧ tw.1 s d = 0) := by
  by_cases htv : tw.1 s d = 0
  · simp [chanStep, htv]
  · rcases hst : st.supported with _ | S <;> simp [chanStep, htv, hst]

theorem chanFold_supported_none_iff (s d : Fin n)
    (l : List ((Fin n → Fin n → ℕ) × (Fin m → Fin m → ℕ))) (st : PairScan m) :
    (l.foldl (chanStep s d) st).supported = none ↔
      (st.supported = none ∧ ∀ tw ∈ l, tw.1 s d = 0) := by
  induction l generalizing st with
  | nil => simp
  | cons tw l ih =>
    rw [List.foldl_cons, ih, chanStep_supported_none_iff]
    constructor
    · rintro ⟨⟨h1, h2⟩, hall⟩
      refine ⟨h1, fun x hx => ?_⟩
      rcases List.mem_cons.mp hx with rfl | hx
      · exact h2
      · exact hall x hx
    · rintro ⟨h1, hall⟩
      exact ⟨⟨h1, hall tw (by simp)⟩, fun x hx => hall x (by simp [hx])⟩

theorem scanPair_supported_some (t : Graph n) (w : Graph m) (s d : Fin n)
    (h : ∃ tw ∈ iter_adj_pairs t w, tw.1 s d ≠ 0) :
    ∃ S, (scanPair t w s d).supported = some S := by
  rcases h with ⟨tw, htw, hne⟩
  rcases hS : (scanPair t w s d).supported with _ | S
  · exfalso
    rw [scanPair, chanFold_supported_none_iff] at hS
    exact hne (hS.2 tw htw)
  · exact ⟨S, rfl⟩

theorem nbr_pair_has_channel (g : Graph n) (p : Fin n × Fin n)
    (hp : p ∈ g.nbr_idx_pairs) (w : Graph m) :
    ∃ tw ∈ iter_adj_pairs g w, tw.1 p.1 p.2 ≠ 0 := by
  simp only [Graph.nbr_idx_pairs, List.mem_flatMap, List.mem_map,
    List.mem_filter, List.mem_finRange, Bool.and_eq_true, true_and,
    List.any_eq_true, Bool.or_eq_true, bne_iff_ne, ne_eq] at hp
  obtain ⟨u, ⟨v, ⟨_, c, hc, hadj⟩, rfl⟩⟩ := hp
  rcases hadj with hadj | hadj
  · exact ⟨(g.adj c, w.adj c), by
      simp only [iter_adj_pairs, List.mem_flatMap]
      exact ⟨c, hc, by simp⟩, hadj⟩
  · exact ⟨(fun a b => g.adj c b a, fun a b => w.adj c b a), by
      simp only [iter_adj_pairs, List.mem_flatMap]
      exact ⟨c, hc, by simp⟩, hadj⟩

theorem processPair_ok (t : Graph n) (w : Graph m)
    (cands : Fin n → Fin m → Bool) (acc : CMat n m) (p : Fin n × Fin n)
    (hp : p ∈ t.nbr_idx_pairs) :
    ∃ acc', processPair t w cands acc p = .ok acc' := by
  simp only [processPair]
  split
  · exact ⟨acc, rfl⟩
  · obtain ⟨S, hS⟩ :=
      scanPair_supported_some t w p.1 p.2 (nbr_pair_has_channel t p hp w)
    rw [hS]
    by_cases hsd : p.1 = p.2 <;> simp [hsd]

theorem pairStep_ok (t : Graph n) (w : Graph m)
    (cands : Fin n → Fin m → Bool) (changed : Option (Fin n → Bool))
    (acc : CMat n m) (p : Fin n × Fin n) (hp : p ∈ t.nbr_idx_pairs) :
    ∃ acc', pairStep t w cands changed acc p = .ok acc' := by
  rcases changed with _ | ch
  · exact processPair_ok t w cands acc p hp
  · simp only [pairStep]
    split
    · exact ⟨acc, rfl⟩
    · exact processPair_ok t w cands acc p hp

theorem pairFold_ok (t : Graph n) (w : Graph m)
    (cands : Fin n → Fin m → Bool) (changed : Option (Fin n → Bool))
    (l : List (Fin n × Fin n)) (hl : ∀ p ∈ l, p ∈ t.nbr_idx_pairs) :
    ∀ acc, ∃ r, l.foldlM (pairStep t w cands changed) acc = .ok r := by
  induction l with
  | nil => exact fun acc => ⟨acc, rfl⟩
  | cons p l ih =>
    intro acc
    obtain ⟨b, hb⟩ := pairStep_ok t w cands changed acc p (hl p (by simp))
    obtain ⟨r, hr⟩ := ih (fun q hq => hl q (by simp [hq])) b
    exact ⟨r, by rw [List.foldlM_cons, hb]; simpa using hr⟩

theorem edgewise_core_ok (t : Graph n) (w : Graph m)
    (cands : Fin n → Fin m → Bool) (changed : Option (Fin n → Bool)) :
    ∃ L, edgewise_core t w cands changed = .ok L :=
  pairFold_ok t w cands changed t.nbr_idx_pairs (fun _ hp => hp) _

theorem exceptBind_ok {α β : Type _} (a : α) (f : α → Except String β) :
    (Except.ok a >>= f) = f a := rfl

theorem exceptBind_error {α β : Type _} (e : String)
    (f : α → Except String β) :
    ((Except.error e : Except String α) >>= f) = .error e := rfl

theorem pairFold_row_unchanged (t : Graph n) (w : Graph m)
    (cands : Fin n → Fin m → Bool) (ch : Fin n → Bool)
    (wnode : Fin n) (l : List (Fin n × Fin n))
    (hinc : ∀ p ∈ l, (p.1 = wnode ∨ p.2 = wnode) → (ch p.1 || ch p.2) = false) :
    ∀ acc r, l.foldlM (pairStep t w cands (some ch)) acc = .ok r →
      ∀ j, r wnode j = acc wnode j := by
  induction l with
  | nil =>
    intro acc r hr j
    simp only [List.foldlM_nil, pure, Except.pure, Except.ok.injEq] at hr
    rw [← hr]
  | cons p l ih =>
    intro acc r hr j
    rw [List.foldlM_cons] at hr
    rcases hb : pairStep t w cands (some ch) acc p with e | b
    · rw [hb, exceptBind_error] at hr
      exact absurd hr (by simp)
    · rw [hb, exceptBind_ok] at hr
      have hstep : b wnode j = acc wnode j := by
        by_cases hmark : (ch p.1 || ch p.2) = false
        · simp only [pairStep, hmark, Bool.not_false, if_true, ite_true,
            pure, Except.pure, Except.ok.injEq] at hb
          rw [← hb]
        · have hni : ¬(p.1 = wnode ∨ p.2 = wnode) :=
            fun hw => hmark (hinc p (by simp) hw)
          push_neg at hni
          have hmark' : (ch p.1 || ch p.2) = true := by
            cases h : (ch p.1 || ch p.2)
            · exact absurd h hmark
            · rfl
          simp only [pairStep, hmark', Bool.not_true, Bool.false_eq_true,
            if_false, ite_false] at hb
          exact processPair_frame t w cands acc b p hb wnode j
            (fun he => hni.1 he.symm) (fun he => hni.2 he.symm)
      have htail : r wnode j = b wnode j :=
        ih (fun q hq => hinc q (by simp [hq])) b r hr j
      rw [htail, hstep]

/-- C5, amended: `edgewise(smp, changed_cands)` recomputes contributions
only for adjacent pairs with a marked endpoint (unmarked pairs are skipped
before any work), so a template node all of whose incident pairs are
unmarked receives a zero row in the newly computed matrix; after the
monotone setter its `local_costs` row therefore equals its previous row
whenever the previous entries are non-negative — as they always are when
produced by the cost pipeline — while a negative entry would be raised to
zero. -/
theorem edgewise_unmarked_row_unchanged (smp : MatchingProblem n m)
    (ch : Fin n → Bool) (wnode : Fin n)
    (hinc : ∀ p ∈ smp.tmplt.nbr_idx_pairs,
      (p.1 = wnode ∨ p.2 = wnode) → (ch p.1 || ch p.2) = false)
    (hnonneg : ∀ j, 0 ≤ smp.local_costs wnode j) :
    ∃ smp', edgewise smp (some ch) = .ok smp' ∧
      ∀ j, smp'.local_costs wnode j = smp.local_costs wnode j := by
  obtain ⟨L, hL⟩ :=
    edgewise_core_ok smp.tmplt smp.world smp.candidates (some ch)
  have hrow : ∀ j, L wnode j = 0 := by
    intro j
    exact pairFold_row_unchanged smp.tmplt smp.world smp.candidates ch wnode
      smp.tmplt.nbr_idx_pairs hinc (fun _ _ => 0) L hL j
  refine ⟨{ smp with local_costs := monotoneWrite smp.local_costs L }, ?_, ?_⟩
  · rw [edgewise, edgewise_local_costs, hL]
    rfl
  · intro j
    show max (smp.local_costs wnode j) (L wnode j) = smp.local_costs wnode j
    rw [hrow j]
    exact max_eq_left (hnonneg j)

/-- Witness for `edgewise_unmarked_row_unchanged`: the noisy test problem,
an all-false changed vector, and template node 0. -/
theorem edgewise_unmarked_row_unchanged_witness :
    ∃ smp', edgewise smp_noisy (some fun _ => false) = .ok smp' ∧
      ∀ j, smp'.local_costs 0 j = smp_noisy.local_costs 0 j :=
  edgewise_unmarked_row_unchanged smp_noisy (fun _ => false) 0
    (by decide) (by decide)

instance exceptDecEq {ε α : Type _} [DecidableEq ε] [DecidableEq α] :
    DecidableEq (Except ε α) := fun x y =>
  match x, y with
  | .ok a, .ok b =>
    if h : a = b then .isTrue (by rw [h])
    else .isFalse (fun hc => h (Except.ok.inj hc))
  | .error e, .error f =>
    if h : e = f then .isTrue (by rw [h])
    else .isFalse (fun hc => h (Except.error.inj hc))
  | .ok _, .error _ => .isFalse (fun hc => Except.noConfusion hc)
  | .error _, .ok _ => .isFalse (fun hc => Except.noConfusion hc)

/-- A 1-node, edgeless template/world pair. -/
def g1e : Graph 1 := ⟨["c1"], fun _ _ _ => 0⟩

/-- A matching problem whose caller-supplied `local_costs` entry is
negative. -/
def smpC5 : MatchingProblem 1 1 :=
  ⟨g1e, g1e, fun _ _ => 0, fun _ _ => ((-1 : ℤ) : Cost), fun _ _ => 0, 0, 0⟩

/-- C5, counterexample: in `smpC5` template node 0 has no incident adjacent
pairs at all (so all of them are trivially unmarked under the all-false
changed vector), yet its `local_costs` row changes across the call: the
monotone setter raises the caller-supplied entry -1 to the recomputed 0. -/
theorem edgewise_unmarked_row_changed :
    Except.map (fun smp => smp.local_costs 0 0)
        (edgewise smpC5 (some fun _ => false)) = .ok (0 : Cost) ∧
    smpC5.local_costs 0 0 = ((-1 : ℤ) : Cost) ∧
    smpC5.tmplt.nbr_idx_pairs = [] ∧
    ((0 : Cost) ≠ ((-1 : ℤ) : Cost)) := by decide

/-- Modelled from the spec: `global_cost_bound.from_local_bounds` (not under
`src/`): combine `fixed_costs` and `local_costs` into `global_costs` by
element-wise sum, installed through the monotone `global_costs` setter. -/
def from_local_bounds (smp : MatchingProblem n m) : MatchingProblem n m :=
  { smp with
    global_costs :=
      monotoneWrite smp.global_costs
        (fun i j => smp.fixed_costs i j + smp.local_costs i j) }

/-- One round of the `while True:` body of `run_filters` (interface.py):
`local_cost_bound.edgewise(smp)` followed by
`global_cost_bound.from_local_bounds(smp)`. -/
def filter_round (smp : MatchingProblem n m) :
    Except String (MatchingProblem n m) :=
  (edgewise smp none).map from_local_bounds

/-- The `while True:` loop of `run_filters` (interface.py): snapshot the
candidate matrix, run one round, and stop as soon as the candidate matrix
did not change; otherwise iterate.  The loop is modelled with explicit fuel
(the termination theorem shows fuel `n*m + 1` is never exhausted) and also
returns the number of rounds that were executed. -/
def filter_loop : ℕ → MatchingProblem n m →
    Except String (MatchingProblem n m × ℕ)
  | 0, smp => .ok (smp, 0)
  | fuel + 1, smp =>
    (filter_round smp).bind (fun smp1 =>
      if smp1.candidates = smp.candidates then .ok (smp1, 1)
      else (filter_loop fuel smp1).map (fun sr => (sr.1, sr.2 + 1)))

theorem filter_round_ok (smp : MatchingProblem n m) :
    ∃ L, edgewise_core smp.tmplt smp.world smp.candidates none = .ok L ∧
      filter_round smp =
        .ok (from_local_bounds
          { smp with local_costs := monotoneWrite smp.local_costs L }) := by
  obtain ⟨L, hL⟩ := edgewise_core_ok smp.tmplt smp.world smp.candidates none
  refine ⟨L, hL, ?_⟩
  rw [filter_round, edgewise, edgewise_local_costs, hL]
  rfl

theorem filter_round_fields (smp smp1 : MatchingProblem n m)
    (h : filter_round smp = .ok smp1) :
    smp1.tmplt = smp.tmplt ∧ smp1.world = smp.world ∧
    smp1.fixed_costs = smp.fixed_costs ∧
    smp1.global_cost_threshold = smp.global_cost_threshold ∧
    ∀ i j, smp.global_costs i j ≤ smp1.global_costs i j := by
  obtain ⟨L, _, hr⟩ := filter_round_ok smp
  rw [hr, Except.ok.injEq] at h
  rw [← h]
  refine ⟨rfl, rfl, rfl, rfl, fun i j => ?_⟩
  exact le_max_left _ _

theorem filter_round_cands_antitone (smp smp1 : MatchingProblem n m)
    (h : filter_round smp = .ok smp1) (i : Fin n) (j : Fin m)
    (hc : smp1.candidates i j = true) : smp.candidates i j = true := by
  obtain ⟨_, _, _, hthr, hge⟩ := filter_round_fields smp smp1 h
  rw [candidates_le_iff] at hc ⊢
  rw [hthr] at hc
  exact le_trans (hge i j) hc

theorem monotoneWrite_absorb (a b : CMat n m) :
    monotoneWrite (monotoneWrite a b) b = monotoneWrite a b := by
  funext i j
  simp [monotoneWrite, max_assoc]

theorem filter_round_fixpoint (smp smp1 : MatchingProblem n m)
    (h : filter_round smp = .ok smp1)
    (hc : smp1.candidates = smp.candidates) :
    filter_round smp1 = .ok smp1 := by
  obtain ⟨L, hL, hr⟩ := filter_round_ok smp
  rw [hr, Except.ok.injEq] at h
  subst h
  obtain ⟨L', hL', hr'⟩ := filter_round_ok _
  rw [hc] at hL'
  have hLL : L' = L := by
    have h2 : Except.ok (ε := String) L' = Except.ok L := hL'.symm.trans hL
    exact Except.ok.inj h2
  rw [hLL] at hr'
  rw [hr']
  congr 1
  have habs1 : monotoneWrite
      (from_local_bounds
        { smp with local_costs := monotoneWrite smp.local_costs L }).local_costs
      L = monotoneWrite smp.local_costs L :=
    monotoneWrite_absorb smp.local_costs L
  rw [from_local_bounds, habs1]
  have habs2 : monotoneWrite
      (monotoneWrite smp.global_costs
        (fun i j => smp.fixed_costs i j + monotoneWrite smp.local_costs L i j))
      (fun i j => smp.fixed_costs i j + monotoneWrite smp.local_costs L i j)
      = monotoneWrite smp.global_costs
        (fun i j => smp.fixed_costs i j + monotoneWrite smp.local_costs L i j) :=
    monotoneWrite_absorb _ _
  show ({ from_local_bounds
      { smp with local_costs := monotoneWrite smp.local_costs L } with
    global_costs := monotoneWrite
      (monotoneWrite smp.global_costs
        (fun i j => smp.fixed_costs i j + monotoneWrite smp.local_costs L i j))
      (fun i j => smp.fixed_costs i j + monotoneWrite smp.local_costs L i j) }
    : MatchingProblem n m)
    = from_local_bounds { smp with local_costs := monotoneWrite smp.local_costs L }
  rw [habs2]
  rfl

/-- Number of true entries of the candidate matrix. -/
def candCount (smp : MatchingProblem n m) : ℕ :=
  (Finset.univ.filter
    (fun p : Fin n × Fin m => smp.candidates p.1 p.2 = true)).card

theorem candCount_le (smp : MatchingProblem n m) : candCount smp ≤ n * m := by
  have h := Finset.card_filter_le (Finset.univ : Finset (Fin n × Fin m))
    (fun p => smp.candidates p.1 p.2 = true)
  rwa [Finset.card_univ, Fintype.card_prod, Fintype.card_fin,
    Fintype.card_fin] at h

theorem candCount_lt (smp smp1 : MatchingProblem n m)
    (h : filter_round smp = .ok smp1)
    (hne : smp1.candidates ≠ smp.candidates) :
    candCount smp1 < candCount smp := by
  apply Finset.card_lt_card
  rw [Finset.ssubset_iff_subset_ne]
  constructor
  · intro p hp
    rw [Finset.mem_filter] at hp ⊢
    exact ⟨hp.1, filter_round_cands_antitone smp smp1 h p.1 p.2 hp.2⟩
  · intro hset
    apply hne
    funext i j
    cases hb1 : smp1.candidates i j <;> cases hb0 : smp.candidates i j
    · rfl
    · exfalso
      have hmem : (i, j) ∈ Finset.univ.filter
          (fun p : Fin n × Fin m => smp.candidates p.1 p.2 = true) := by
        rw [Finset.mem_filter]
        exact ⟨Finset.mem_univ _, hb0⟩
      rw [← hset, Finset.mem_filter] at hmem
      rw [hb1] at hmem
      exact Bool.false_ne_true hmem.2
    · exfalso
      have hmem : (i, j) ∈ Finset.univ.filter
          (fun p : Fin n × Fin m => smp1.candidates p.1 p.2 = true) := by
        rw [Finset.mem_filter]
        exact ⟨Finset.mem_univ _, hb1⟩
      rw [hset, Finset.mem_filter] at hmem
      rw [hb0] at hmem
      exact Bool.false_ne_true hmem.2
    · rfl

theorem bindOkE {α β : Type _} (a : α) (f : α → Except String β) :
    (Except.ok a).bind f = f a := rfl

theorem filter_loop_reaches_fixpoint :
    ∀ (fuel : ℕ) (smp : MatchingProblem n m), candCount smp < fuel →
    ∃ smp' r, filter_loop fuel smp = .ok (smp', r) ∧ 1 ≤ r ∧
      r ≤ candCount smp + 1 ∧ filter_round smp' = .ok smp' := by
  intro fuel
  induction fuel with
  | zero => exact fun smp h => absurd h (Nat.not_lt_zero _)
  | succ fuel ih =>
    intro smp hlt
    obtain ⟨L, hL, hr⟩ := filter_round_ok smp
    rw [show filter_loop (fuel + 1) smp
        = (filter_round smp).bind (fun smp1 =>
            if smp1.candidates = smp.candidates then .ok (smp1, 1)
            else (filter_loop fuel smp1).map (fun sr => (sr.1, sr.2 + 1)))
      from rfl, hr, bindOkE]
    by_cases hc : (from_local_bounds
        { smp with local_costs := monotoneWrite smp.local_costs L }).candidates
        = smp.candidates
    · rw [if_pos hc]
      exact ⟨_, 1, rfl, le_rfl, by omega, filter_round_fixpoint smp _ hr hc⟩
    · rw [if_neg hc]
      have hdec := candCount_lt smp _ hr hc
      obtain ⟨smp', r, hloop, hr1, hrle, hfix⟩ :=
        ih (from_local_bounds
          { smp with local_costs := monotoneWrite smp.local_costs L })
          (by omega)
      refine ⟨smp', r + 1, ?_, by omega, by omega, hfix⟩
      rw [hloop]
      rfl

/-- C3: the `while True:` filtering loop of `run_filters` reaches its fixed
point within `n*m + 1` executions of the body, of which at most `n*m` see
the candidate matrix change (the loop exits at the first round in which no
entry of the candidate matrix changed — the break is the loop's guard by
construction), and the state at exit is stable under one more application
of the edgewise and global bounds: one more round reproduces the exit state,
and in particular its candidate matrix, exactly. -/
theorem run_filters_loop_terminates (smp : MatchingProblem n m) :
    ∃ smp' r, filter_loop (n * m + 1) smp = .ok (smp', r) ∧
      1 ≤ r ∧ r ≤ n * m + 1 ∧ filter_round smp' = .ok smp' := by
  have hle := candCount_le smp
  obtain ⟨smp', r, hloop, h1, hr, hfix⟩ :=
    filter_loop_reaches_fixpoint (n * m + 1) smp (by omega)
  exact ⟨smp', r, hloop, h1, by omega, hfix⟩

/-- The supported-edge count in the words of the specification: between
candidate columns `j` (for `u`) and `k` (for `v`), the sum over channels —
both directions — of the minimum of the world sub-adjacency entry and the
template edge count. -/
def supported_count (t : Graph n) (w : Graph m) (u v : Fin n)
    (j k : Fin m) : ℕ :=
  (t.channels.map (fun c =>
    min (w.adj c j k) (t.adj c u v) + min (w.adj c k j) (t.adj c v u))).sum

/-- The total number of template edges between `u` and `v`, over all
channels and both directions. -/
def total_tmplt_edges (t : Graph n) (u v : Fin n) : ℕ :=
  (t.channels.map (fun c => t.adj c u v + t.adj c v u)).sum

theorem iter_adj_pairs_map_sum (t : Graph n) (w : Graph m)
    (f : ((Fin n → Fin n → ℕ) × (Fin m → Fin m → ℕ)) → ℕ) :
    ((iter_adj_pairs t w).map f).sum
      = (t.channels.map (fun c =>
          f (t.adj c, w.adj c)
            + f (fun a b => t.adj c b a, fun a b => w.adj c b a))).sum := by
  suffices h : ∀ cs : List String,
      ((cs.flatMap (fun c =>
        [(t.adj c, w.adj c),
         (fun a b => t.adj c b a, fun a b => w.adj c b a)])).map f).sum
      = (cs.map (fun c =>
          f (t.adj c, w.adj c)
            + f (fun a b => t.adj c b a, fun a b => w.adj c b a))).sum from
    h t.channels
  intro cs
  induction cs with
  | nil => simp
  | cons c cs ih =>
    simp only [List.flatMap_cons, List.map_append, List.sum_append, ih,
      List.map_cons, List.sum_cons]
    simp [add_assoc]

theorem chanStep_total (s d : Fin n) (st : PairScan m)
    (tw : (Fin n → Fin n → ℕ) × (Fin m → Fin m → ℕ)) :
    (chanStep s d st tw).total = st.total + tw.1 s d := by
  by_cases htv : tw.1 s d = 0
  · simp [chanStep, htv]
  · rcases hst : st.supported with _ | S <;> simp [chanStep, htv, hst]

theorem chanFold_total (s d : Fin n)
    (l : List ((Fin n → Fin n → ℕ) × (Fin m → Fin m → ℕ)))
    (st : PairScan m) :
    (l.foldl (chanStep s d) st).total
      = st.total + (l.map (fun tw => tw.1 s d)).sum := by
  induction l generalizing st with
  | nil => simp
  | cons tw l ih =>
    rw [List.foldl_cons, ih, chanStep_total]
    simp [add_assoc]

theorem scanPair_total (t : Graph n) (w : Graph m) (s d : Fin n) :
    (scanPair t w s d).total = total_tmplt_edges t s d := by
  rw [scanPair, chanFold_total, Nat.zero_add,
    iter_adj_pairs_map_sum t w (fun tw => tw.1 s d)]
  rfl

theorem chanFold_supported_from_some (s d : Fin n)
    (l : List ((Fin n → Fin n → ℕ) × (Fin m → Fin m → ℕ))) :
    ∀ (st : PairScan m) (S0 : Fin m → Fin m → ℕ), st.supported = some S0 →
    (l.foldl (chanStep s d) st).supported
      = some (fun j k =>
          S0 j k + (l.map (fun tw => min (tw.2 j k) (tw.1 s d))).sum) := by
  induction l with
  | nil =>
    intro st S0 h
    simpa using h
  | cons tw l ih =>
    intro st S0 h
    rw [List.foldl_cons]
    by_cases htv : tw.1 s d = 0
    · have hsup : (chanStep s d st tw).supported = some S0 := by
        simp [chanStep, htv, h]
      rw [ih _ S0 hsup]
      simp [htv]
    · have hsup : (chanStep s d st tw).supported
          = some (fun j k => S0 j k + min (tw.2 j k) (tw.1 s d)) := by
        simp [chanStep, htv, h]
      rw [ih _ _ hsup]
      simp [add_assoc]

theorem chanFold_supported_from_none (s d : Fin n)
    (l : List ((Fin n → Fin n → ℕ) × (Fin m → Fin m → ℕ))) :
    ∀ st : PairScan m, st.supported = none → (∃ tw ∈ l, tw.1 s d ≠ 0) →
    (l.foldl (chanStep s d) st).supported
      = some (fun j k =>
          (l.map (fun tw => min (tw.2 j k) (tw.1 s d))).sum) := by
  induction l with
  | nil =>
    intro st _ hex
    simp at hex
  | cons tw l ih =>
    intro st hst hex
    rw [List.foldl_cons]
    by_cases htv : tw.1 s d = 0
    · have hsup : (chanStep s d st tw).supported = none := by
        simp [chanStep, htv, hst]
      have hex' : ∃ tw' ∈ l, tw'.1 s d ≠ 0 := by
        rcases hex with ⟨x, hx, hxne⟩
        rcases List.mem_cons.mp hx with rfl | hx
        · exact absurd htv hxne
        · exact ⟨x, hx, hxne⟩
      rw [ih _ hsup hex']
      simp [htv]
    · have hsup : (chanStep s d st tw).supported
          = some (fun j k => min (tw.2 j k) (tw.1 s d)) := by
        simp [chanStep, htv, hst]
      rw [chanFold_supported_from_some s d l _ _ hsup]
      simp

theorem scanPair_supported_eq (t : Graph n) (w : Graph m) (s d : Fin n)
    (hadj : total_tmplt_edges t s d ≠ 0) :
    (scanPair t w s d).supported
      = some (fun j k => supported_count t w s d j k) := by
  have hsum : ((iter_adj_pairs t w).map (fun tw => tw.1 s d)).sum ≠ 0 := by
    rw [iter_adj_pairs_map_sum t w (fun tw => tw.1 s d)]
    exact hadj
  have hex : ∃ tw ∈ iter_adj_pairs t w, tw.1 s d ≠ 0 := by
    by_contra hall
    push_neg at hall
    apply hsum
    apply List.sum_eq_zero
    intro x hx
    rw [List.mem_map] at hx
    obtain ⟨tw, htw, rfl⟩ := hx
    exact hall tw htw
  rw [scanPair, chanFold_supported_from_none s d _ _ rfl hex]
  congr 1
  funext j k
  rw [iter_adj_pairs_map_sum t w (fun tw => min (tw.2 j k) (tw.1 s d))]
  rfl

theorem nbr_pair_total_ne_zero (t : Graph n) (p : Fin n × Fin n)
    (hp : p ∈ t.nbr_idx_pairs) : total_tmplt_edges t p.1 p.2 ≠ 0 := by
  simp only [Graph.nbr_idx_pairs, List.mem_flatMap, List.mem_map,
    List.mem_filter, List.mem_finRange, Bool.and_eq_true, true_and,
    List.any_eq_true, Bool.or_eq_true, bne_iff_ne, ne_eq] at hp
  obtain ⟨u, ⟨v, ⟨_, c, hc, hor⟩, rfl⟩⟩ := hp
  intro hzero
  rw [total_tmplt_edges, List.sum_eq_zero_iff] at hzero
  have hterm : t.adj c u v + t.adj c v u = 0 :=
    hzero _ (List.mem_map.mpr ⟨c, hc, rfl⟩)
  rcases hor with h | h <;> omega

/-- C6: for an adjacent template pair `(u, v)` drawn from the neighbor
index, with both candidate sets nonempty and no edge attribute function,
the pair-loop body computes the supported-edge count as the sum over
channels (both directions) of `min(world sub-adjacency entry, template edge
count)`, and adds `total template edges - row-maximum over v's candidates`
into `u`'s row at `u`'s candidates, and — when `u ≠ v` — `total template
edges - column-maximum over u's candidates` into `v`'s row at `v`'s
candidates; all other entries are left unchanged. -/
theorem edgewise_pair_computation (t : Graph n) (w : Graph m)
    (cands : Fin n → Fin m → Bool) (acc : CMat n m) (u v : Fin n)
    (hp : (u, v) ∈ t.nbr_idx_pairs)
    (hu : anyTrue (cands u) = true) (hv : anyTrue (cands v) = true) :
    processPair t w cands acc (u, v) = .ok (fun i j =>
      if i = u ∧ cands u j = true then
        acc i j + natCost (total_tmplt_edges t u v
          - candMax (cands v) (fun k => supported_count t w u v j k))
      else if i = v ∧ cands v j = true then
        acc i j + natCost (total_tmplt_edges t u v
          - candMax (cands u) (fun q => supported_count t w u v q j))
      else acc i j) := by
  have hadj := nbr_pair_total_ne_zero t (u, v) hp
  simp only [processPair]
  rw [show (!(anyTrue (cands (u, v).1)) || !(anyTrue (cands (u, v).2)))
      = false by simp [hu, hv]]
  rw [show ((scanPair t w (u, v).1 (u, v).2).supported)
      = some (fun j k => supported_count t w u v j k) from
    scanPair_supported_eq t w u v hadj]
  simp only [Bool.false_eq_true, if_false, ite_false]
  by_cases huv : u = v
  · subst huv
    rw [if_pos rfl]
    congr 1
    funext i j
    rw [scanPair_total]
    by_cases h1 : i = u ∧ cands u j = true
    · simp [h1]
    · simp [h1]
  · rw [if_neg (by simpa using huv)]
    congr 1
    funext i j
    rw [scanPair_total]
    have hvu : ¬v = u := fun h => huv h.symm
    by_cases h1 : i = u ∧ cands u j = true
    · have h2 : ¬(i = v ∧ cands v j = true) := by
        rintro ⟨rfl, _⟩
        exact huv (h1.1.symm)
      simp [h1, h2, huv]
    · by_cases h2 : i = v ∧ cands v j = true
      · simp [h1, h2, hvu]
      · simp [h1, h2]

/-- Witness for `edgewise_pair_computation`: the noisy test problem, its
adjacent pair (1, 2), and a zero accumulator. -/
theorem edgewise_pair_computation_witness :
    processPair tmpltG3 worldNoisyG3 smp_noisy.candidates (fun _ _ => 0)
      ((1 : Fin 3), (2 : Fin 3)) = .ok (fun i j =>
      if i = (1 : Fin 3) ∧ smp_noisy.candidates 1 j = true then
        (0 : Cost) + natCost (total_tmplt_edges tmpltG3 1 2
          - candMax (smp_noisy.candidates 2)
              (fun k => supported_count tmpltG3 worldNoisyG3 1 2 j k))
      else if i = (2 : Fin 3) ∧ smp_noisy.candidates 2 j = true then
        (0 : Cost) + natCost (total_tmplt_edges tmpltG3 1 2
          - candMax (smp_noisy.candidates 1)
              (fun q => supported_count tmpltG3 worldNoisyG3 1 2 q j))
      else 0) :=
  edgewise_pair_computation tmpltG3 worldNoisyG3 smp_noisy.candidates
    (fun _ _ => 0) 1 2 (by decide) (by decide) (by decide)

/-- A solution record of the search: a complete mapping from template-node
index to world-node index (the world index assigned to each template node,
in template-node order), plus its total cost. -/
structure Solution where
  matching : List ℕ
  cost : Cost
deriving DecidableEq

/-- All mappings from `Fin k` to world indices, enumerated lexicographically
over world-node indices in template-node order (the deterministic
tie-breaking order of the specification). -/
def funTuples (m : ℕ) : (k : ℕ) → List (Fin k → Fin m)
  | 0 => [Fin.elim0]
  | k + 1 =>
    (List.finRange m).flatMap
      (fun j => (funTuples m k).map (fun t => Fin.cons j t))

/-- Injectivity of a mapping, as a decidable check. -/
def injB (f : Fin k → Fin m) : Bool :=
  decide (∀ i i' : Fin k, f i = f i' → i = i')

/-- Modelled from the spec: the total cost of a complete assignment under
full verification against actual graph structure — the sum of the fixed
costs of each (template node, assigned world node) pair plus, over every
channel and every directed template-node pair, the number of template edges
missing between the assigned world nodes. -/
def assignment_cost (smp : MatchingProblem n m) (f : Fin n → Fin m) : Cost :=
  ((List.finRange n).map (fun i => smp.fixed_costs i (f i))).sum
    + natCost ((smp.tmplt.channels.map (fun c =>
        ((List.finRange n).map (fun u =>
          ((List.finRange n).map (fun v =>
            smp.tmplt.adj c u v - smp.world.adj c (f u) (f v))).sum)).sum)).sum)

/-- Stable insertion into a cost-ranked list: the new record goes after all
records of cost less than or equal to its own, preserving the enumeration
order among ties. -/
def insertRanked (s : Solution) : List Solution → List Solution
  | [] => [s]
  | x :: xs => if s.cost < x.cost then s :: x :: xs else x :: insertRanked s xs

/-- Modelled from the spec: `greedy_best_k_matching` (the search module is
not under `src/`).  Enumerate complete injective assignments, keep those
whose total verified cost does not exceed `global_cost_threshold`, rank them
by ascending cost with ties broken by the lexicographic enumeration order,
and return the first `k` (all of them when `k = -1`). -/
def greedy_best_k_matching (smp : MatchingProblem n m) (k : ℤ) :
    List Solution :=
  let complete := (funTuples m n).filter (fun f => injB f)
  let within := complete.filter
    (fun f => decide (assignment_cost smp f ≤ smp.global_cost_threshold))
  let ranked := (within.map
    (fun f => Solution.mk ((List.finRange n).map (fun i => (f i).val))
      (assignment_cost smp f))).foldl
      (fun acc s => insertRanked s acc) []
  if k < 0 then ranked else ranked.take k.toNat


/-- Boolean check that a solution list is sorted by non-decreasing cost. -/
def rankedByCost : List Solution → Bool
  | [] => true
  | [_] => true
  | a :: b :: rest => decide (a.cost ≤ b.cost) && rankedByCost (b :: rest)

/-- The noisy problem with its threshold raised to infinity. -/
def smp_noisy_inf : MatchingProblem 3 3 :=
  { smp_noisy with global_cost_threshold := ⊤ }

/-- C7: on the noisy 3-node two-channel scenario with threshold 1, best-k
search with k = 1 returns exactly the single solution of cost 1 carrying the
identity mapping 0→0, 1→1, 2→2; with the threshold raised to infinity,
k = 6 returns exactly 6 solutions ranked by non-decreasing cost with the
cost-1 identity mapping first, and k = 5 returns exactly 5, again with the
identity mapping first. -/
theorem greedy_best_k_noisy_scenario :
    greedy_best_k_matching smp_noisy 1 = [⟨[0, 1, 2], (1 : Cost)⟩] ∧
    (greedy_best_k_matching smp_noisy_inf 6).length = 6 ∧
    (greedy_best_k_matching smp_noisy_inf 6).head?
      = some ⟨[0, 1, 2], (1 : Cost)⟩ ∧
    rankedByCost (greedy_best_k_matching smp_noisy_inf 6) = true ∧
    (greedy_best_k_matching smp_noisy_inf 5).length = 5 := by decide

/-- A raw cost array as supplied by the caller to the constructor: a list
of rows, whatever its shape. -/
abbrev Arr := List (List Cost)

/-- The zero array `np.zeros(self.shape)`. -/
def zerosArr (n m : ℕ) : Arr :=
  List.replicate n (List.replicate m (0 : Cost))

/-- Whether an array has shape `(n, m)`. -/
def arrShapeOk (a : Arr) (n m : ℕ) : Bool :=
  decide (a.length = n) && a.all (fun r => decide (r.length = m))

/-- Modelled from the spec: `inspect_channels` from `matching_utils` (not
under `src/`): called when the channel lists differ; fatal when the
template has a channel the world lacks (an unrecoverable mismatch). -/
def inspect_channels (t : Graph n) (w : Graph m) : Except String Unit :=
  if t.channels.all (fun c => w.channels.contains c) then .ok ()
  else .error "ChannelError: template channel missing from world"

/-- Modelled from the spec: `world.channel_subgraph(tmplt.channels)` (a
`Graph` method not under `src/`): restrict the world to the template's
channels, in the template's order. -/
def Graph.channel_subgraph (g : Graph k) (chs : List String) : Graph k :=
  ⟨chs, g.adj⟩

/-- Modelled from the spec: `tmplt.has_loops` (a `Graph` attribute not
under `src/`): whether any channel has a self-edge. -/
def Graph.has_loops (g : Graph k) : Bool :=
  g.channels.any (fun c => (List.finRange k).any (fun i => g.adj c i i != 0))

/-- Modelled from the spec: `loopless_subgraph` (a `Graph` method not under
`src/`): the same graph with all self-edges removed. -/
def Graph.loopless_subgraph (g : Graph k) : Graph k :=
  ⟨g.channels, fun c i j => if i = j then 0 else g.adj c i j⟩

/-- Modelled from the spec: `feature_disagreements(tmplt.self_edges,
world.self_edges)` from `matching_utils` (not under `src/`): entry `(i, j)`
counts, summed over channels, the template self-edges at node `i` that are
missing at world node `j` — the self-loop contribution folded into the
fixed costs. -/
def feature_disagreements (t : Graph n) (w : Graph k) : Arr :=
  (List.finRange n).map (fun i =>
    (List.finRange k).map (fun j =>
      natCost ((t.channels.map (fun c => t.adj c i i - w.adj c j j)).sum)))

/-- Number of rows of a raw array. -/
def arrRows (a : Arr) : ℕ := a.length

/-- Number of columns of a rectangular raw array: the length of its first
row. -/
def arrCols (a : Arr) : ℕ := (a.headD []).length

/-- Whether a raw array is rectangular — every row as long as the first —
as an ndarray always is. -/
def rectangular (a : Arr) : Bool :=
  a.all (fun r => decide (r.length = arrCols a))

/-- Entry of `b` as read by numpy broadcasting against a larger array: a
size-one dimension repeats its single index. -/
def broadcastGet (b : Arr) (i j : ℕ) : Cost :=
  let bi := if arrRows b = 1 then 0 else i
  let bj := if arrCols b = 1 then 0 else j
  (b.getD bi []).getD bj 0

/-- The in-place numpy `a += b` of the constructor.  numpy broadcasts `b`
into `a`: the add succeeds when both arrays are rectangular and each
dimension of `b` equals the corresponding dimension of `a` or is one — so
for a 1-node looped template the `(1, 1)` disagreement array broadcasts
into a caller array of any shape — and it stores the element-wise sums
back into the caller's array `a`, whose shape is preserved. -/
def addInPlace (a b : Arr) : Except String Arr :=
  if (rectangular a = true ∧ rectangular b = true ∧
      (arrRows b = arrRows a ∨ arrRows b = 1) ∧
      (arrCols b = arrCols a ∨ arrCols b = 1)) then
    .ok ((List.range (arrRows a)).map (fun i =>
      (List.range (arrCols a)).map (fun j =>
        (a.getD i []).getD j 0 + broadcastGet b i j)))
  else .error "ValueError: operands could not be broadcast together"

/-- The state stored by `MatchingProblem.__init__` before any shape
discipline is known: the two (possibly loop-stripped) graphs, the three
cost arrays exactly as supplied — the stored `MonotoneArray`s are views of
the caller's buffers — and the thresholds. -/
structure RawMatchingProblem (n m : ℕ) where
  tmplt : Graph n
  world : Graph m
  fixed_costs : Arr
  local_costs : Arr
  global_costs : Arr
  local_cost_threshold : Cost
  global_cost_threshold : Cost

/-- Constructor `MatchingProblem.__init__` (matching_problem.py): default missing
arrays to zeros of shape `(n, m)`; reconcile differing channel lists by
`inspect_channels` followed by restriction of the world to the template's
channels; when the template has self-loops, add the self-edge feature
disagreements into `fixed_costs` in place (numpy `+=`, mutating the
caller's array) and strip the loops from both graphs; finally store the
arrays as `MonotoneArray` views.  At no point is the shape of a supplied
cost array compared against `(n, m)`. -/
def matching_problem_init (tmplt : Graph n) (world : Graph m)
    (fixed_costs? local_costs? global_costs? : Option Arr)
    (lct gct : Cost) : Except String (RawMatchingProblem n m) :=
  let fixed := fixed_costs?.getD (zerosArr n m)
  let locl := local_costs?.getD (zerosArr n m)
  let globl := global_costs?.getD (zerosArr n m)
  let step1 : Except String (Graph m) :=
    if tmplt.channels = world.channels then .ok world
    else (inspect_channels tmplt world).map
      (fun _ => world.channel_subgraph tmplt.channels)
  step1.bind (fun world =>
    if tmplt.has_loops = true then
      (addInPlace fixed (feature_disagreements tmplt world)).map
        (fun fixed =>
          ⟨tmplt.loopless_subgraph, world.loopless_subgraph,
            fixed, locl, globl, lct, gct⟩)
    else .ok ⟨tmplt, world, fixed, locl, globl, lct, gct⟩)

/-- A 3-row, 2-column zero array — the wrong shape for a 1×1 problem. -/
def badArr : Arr := List.replicate 3 (List.replicate 2 (0 : Cost))

/-- A 1-node graph whose single node carries a self-loop on channel c1. -/
def gLoop : Graph 1 := ⟨["c1"], fun c _ _ => if c = "c1" then 1 else 0⟩

/-- C8, counterexample: constructing a matching problem over two 1-node
graphs with a supplied 3×2 `fixed_costs` array succeeds — the constructor
never compares the supplied shapes against the graphs' node counts. -/
theorem constructor_accepts_bad_shape :
    isOkE (matching_problem_init g1e g1e (some badArr) none none 0 0)
      = true ∧
    arrShapeOk badArr 1 1 = false := by decide

/-- C8, amended: the constructor performs no shape validation on supplied
cost arrays: with matching channel lists, construction succeeds whatever
the supplied shapes whenever the template is loopless, and also — for a
looped template — whenever numpy's broadcast rule lets the `(n, m)`
self-edge disagreement array be added in place into the supplied
`fixed_costs` (so, e.g., a 1-node looped template accepts a 3×2 array);
shape mismatch surfaces only later, in uses of the arrays. -/
theorem constructor_no_shape_validation (t : Graph n) (w : Graph m)
    (arr : Arr) (locl? globl? : Option Arr) (lct gct : Cost)
    (hc : t.channels = w.channels) :
    (t.has_loops = false →
      ∃ smp, matching_problem_init t w (some arr) locl? globl? lct gct
        = .ok smp) ∧
    (∀ a', addInPlace arr (feature_disagreements t w) = .ok a' →
      ∃ smp, matching_problem_init t w (some arr) locl? globl? lct gct
        = .ok smp) := by
  constructor
  · intro hl
    rw [matching_problem_init, if_pos hc, bindOkE, hl]
    exact ⟨_, rfl⟩
  · intro a' hadd
    rw [matching_problem_init, if_pos hc, bindOkE]
    by_cases hl : t.has_loops = true
    · rw [hl, if_pos rfl]
      simp only [Option.getD_some]
      rw [hadd]
      exact ⟨_, rfl⟩
    · rw [if_neg hl]
      exact ⟨_, rfl⟩

/-- Witness for `constructor_no_shape_validation`: the 1-node looped
template, whose 1×1 disagreement array broadcasts into the mis-shaped 3×2
caller array, so construction succeeds. -/
theorem constructor_no_shape_validation_witness :
    ∃ smp, matching_problem_init gLoop gLoop (some badArr) none none 0 0
      = .ok smp :=
  (constructor_no_shape_validation gLoop gLoop badArr none none 0 0
      rfl).2
    (List.replicate 3 (List.replicate 2 (0 : Cost))) (by decide)

/-- A 1×1 zero array standing for the caller's `fixed_costs` buffer. -/
def arr11 : Arr := [[(0 : Cost)]]

/-- C10, counterexample: `gLoop` has self-loops, and the constructor does
run the in-place `+=` into the caller's 1×1 array — but the world node
carries the same self-loop, every disagreement is zero, and the caller's
array afterwards holds exactly its original values: it is not observably
modified. -/
theorem constructor_inplace_add_unobservable :
    Graph.has_loops gLoop = true ∧
    Except.map (fun smp => smp.fixed_costs)
        (matching_problem_init gLoop gLoop (some arr11) none none 0 0)
      = .ok arr11 := by decide

/-- C10, amended: when the template has self-loops the constructor adds the
self-edge disagreement costs into the caller's `fixed_costs` array in place
(via `+=`), so after construction the caller's buffer holds the incremented
values — observably changed exactly when some disagreement entry is
nonzero; when the template has no self-loops the caller's array is not
touched. -/
theorem constructor_fixed_costs_inplace (t : Graph n) (w : Graph m)
    (arr : Arr) (locl? globl? : Option Arr) (lct gct : Cost)
    (hc : t.channels = w.channels) :
    (t.has_loops = true →
      Except.map (fun smp => smp.fixed_costs)
          (matching_problem_init t w (some arr) locl? globl? lct gct)
        = addInPlace arr (feature_disagreements t w)) ∧
    (t.has_loops = false →
      Except.map (fun smp => smp.fixed_costs)
          (matching_problem_init t w (some arr) locl? globl? lct gct)
        = .ok arr) := by
  constructor
  · intro hl
    rw [matching_problem_init, if_pos hc, bindOkE, hl]
    rw [if_pos rfl]
    simp only [Option.getD_some]
    rcases hadd : addInPlace arr (feature_disagreements t w) with e | a <;> rfl
  · intro hl
    rw [matching_problem_init, if_pos hc, bindOkE, hl]
    rfl

/-- Witness for `constructor_fixed_costs_inplace`: the 1-node looped graphs
and the caller's 1×1 zero array. -/
theorem constructor_fixed_costs_inplace_witness :
    (Graph.has_loops gLoop = true →
      Except.map (fun smp => smp.fixed_costs)
          (matching_problem_init gLoop gLoop (some arr11) none none 0 0)
        = addInPlace arr11 (feature_disagreements gLoop gLoop)) ∧
    (Graph.has_loops gLoop = false →
      Except.map (fun smp => smp.fixed_costs)
          (matching_problem_init gLoop gLoop (some arr11) none none 0 0)
        = .ok arr11) :=
  constructor_fixed_costs_inplace gLoop gLoop arr11 none none 0 0 rfl

/-- The exact-match 3-node problem of the search tests: template and world
identical, zero thresholds. -/
def smp_exact : MatchingProblem 3 3 :=
  ⟨tmpltG3, tmpltG3, fun _ _ => 0, fun _ _ => 0, fun _ _ => 0, 0, 0⟩

/-- Method `MatchingProblem.reduce_world` (matching_problem.py, line 307): its
body begins with `self.structural_costs.min(axis=0)`, but no code in the
repository ever defines a `structural_costs` attribute — the class stores
`_fixed_costs`, `_local_costs` and `_global_costs` — and its later lines
likewise use the undefined `self._structural_cost_sum` and
`self._compute_total_costs`.  Every call therefore raises `AttributeError`
at its first statement, before touching the world graph or returning
anything. -/
def MatchingProblem.reduce_world (_smp : MatchingProblem n m) :
    Except String (MatchingProblem n m × Bool) :=
  .error "AttributeError: MatchingProblem object has no attribute structural_costs"

/-- C9: `reduce_world()` cannot restrict the world graph for any problem —
on the exact-match test problem (as on every other) the call raises
`AttributeError` because the class never defines `structural_costs`, and no
boolean is ever returned. -/
theorem reduce_world_attribute_error :
    smp_exact.reduce_world
      = .error
        "AttributeError: MatchingProblem object has no attribute structural_costs" :=
  rfl
